import Mathlib

/-!
Verification of the continuation-passing pipeline ("Chain") in
`models/pattern/chain.go`.

The Go code is shallowly embedded as follows.

* A Go `ChainStageFunction` receives `(plan *Plan, err error, next ChainStageNextFunction)`
  and may call `next` any number of times.  We defunctionalize a stage by the
  list of `(plan, err)` argument pairs it passes to `next`, as a function of the
  `(plan, err)` it received (`StageFn`).  The stage's own invocation is recorded
  in an event trace, which is the observable behaviour of a run.
* `Plan` is opaque to the core, so we keep it as a type parameter `P`; Go's
  nilable `error` is `Option E`.
* `Chain.mu` is a `*sync.Mutex`, i.e. a nilable pointer, modelled as
  `Option Unit`; `CreateChain` leaves it `nil` exactly as the Go constructor
  does.  Calling `Lock` through a nil pointer panics, which we model by the
  `Ev.nilMutexPanic` event together with an abort flag and an unchanged chain.
* The closure `stageFn` built inside `Chain.Add` captures the chain pointer and
  its own slot index and reads `ch.nexts[idx]` at call time; we model closures
  by the pair (stage function, captured index) and look the slot up in the
  chain at invocation time (`runStage`).  Invoking a nil slot, or indexing out
  of range, panics (`Ev.nilNextPanic` / `Ev.oobPanic`) and aborts the run, as a
  Go runtime panic would.  Recursion through slots is fuel-indexed; every
  theorem assumes enough fuel for the chain at hand.
-/

namespace MesheryPattern

/-- A Go `ChainStageFunction`, defunctionalized: given the `(plan, err)` pair the
stage was invoked with, it returns the list of `(plan, err)` argument pairs it
passes to its bound continuation `next`, in order.  An empty list models a stage
that returns without calling `next`. -/
def StageFn (P E : Type) : Type :=
  P → Option E → List (P × Option E)

/-- Observable events of a run: mutex operations, stage invocations (slot index
and the `(plan, err)` arguments the stage function receives), and the three
panic modes (calling a nil continuation, indexing a shrunk `nexts` slice, and
locking through the nil `*sync.Mutex` left by `CreateChain`). -/
inductive Ev (P E : Type) where
  | lock : Ev P E
  | unlock : Ev P E
  | invoke : Nat → P → Option E → Ev P E
  | nilNextPanic : Ev P E
  | oobPanic : Ev P E
  | nilMutexPanic : Ev P E
  deriving DecidableEq, Repr

/-- The `Chain` struct: `stages` and `nexts` hold closure values, modelled as
pairs of the underlying stage function and the slot index the closure captured;
`mu` is the nilable `*sync.Mutex`. -/
structure Chain (P E : Type) where
  stages : List (StageFn P E × Nat)
  nexts : List (Option (StageFn P E × Nat))
  mu : Option Unit

/-- The Go constructor `CreateChain`: empty `stages` and `nexts`, and the `mu`
field is never initialized, so it is the nil pointer (`none`). -/
def CreateChain (P E : Type) : Chain P E :=
  ⟨[], [], none⟩

/-- A `Chain` value whose `mu` field holds a valid mutex (as a caller inside the
package could build with a struct literal); the behavioural theorems about
`Add`/`Process` run on chains derived from this one, since locking the nil
mutex of `CreateChain` panics (claim C3). -/
def newChain (P E : Type) : Chain P E :=
  ⟨[], [], some ()⟩

/-- Sequencing of the results of a list of continuation calls: concatenate the
traces in order, stopping at (and including) the first aborted one, as a Go
panic unwinds past the remaining calls.  The children are pure and independent
of one another, so precomputing them all and cutting here yields exactly the
trace the lazy left-to-right execution produces. -/
def seqAbort {α : Type} : List (List α × Bool) → List α × Bool
  | [] => ([], false)
  | r :: rest =>
    if r.2 then r
    else
      let s := seqAbort rest
      (r.1 ++ s.1, s.2)

/-- Invocation of the closure `stageFn` built in `Chain.Add`: record the
invocation, run the stage function, and for each call it makes to `next`, look
up `ch.nexts[idx]` at call time and invoke it (a nil slot or an out-of-range
index panics).  `fuel` bounds the nesting depth of closure invocations. -/
def runStage (c : Chain P E) : Nat → StageFn P E × Nat → P → Option E → List (Ev P E) × Bool
  | 0, _, _, _ => ([], true)
  | fuel + 1, w, p, e =>
    let g := seqAbort ((w.1 p e).map (fun q =>
      match c.nexts[w.2]? with
      | none => ([Ev.oobPanic], true)
      | some none => ([Ev.nilNextPanic], true)
      | some (some w2) => runStage c fuel w2 q.1 q.2))
    (Ev.invoke w.2 p e :: g.1, g.2)

/-- The Go `Chain.Add`: lock `mu` (panicking if it is nil, with the chain left
unchanged), append a nil continuation slot, build the closure for `fn` around
the new slot's index, retroactively point the previous slot at the new closure,
and append the closure to `stages`.  Returns the updated chain, the event
trace, and whether the call panicked. -/
def Chain.Add (c : Chain P E) (fn : StageFn P E) : Chain P E × (List (Ev P E) × Bool) :=
  match c.mu with
  | none => (c, ([Ev.nilMutexPanic], true))
  | some _ =>
    let nexts1 := c.nexts ++ [none]
    let idx := nexts1.length - 1
    let w : StageFn P E × Nat := (fn, idx)
    let nexts2 := if 0 < idx then nexts1.set (idx - 1) (some w) else nexts1
    (⟨c.stages ++ [w], nexts2, c.mu⟩, ([Ev.lock, Ev.unlock], false))

/-- The Go `Chain.Process`: lock `mu` (panicking if nil), and if the stage list
is nonempty invoke `stages[0]` with `(plan, nil)`; the deferred unlock runs even
when the pipeline panics.  Returns the (unmodified) chain, the trace, and the
panic flag. -/
def Chain.Process (c : Chain P E) (fuel : Nat) (plan : P) : Chain P E × (List (Ev P E) × Bool) :=
  match c.mu with
  | none => (c, ([Ev.nilMutexPanic], true))
  | some _ =>
    match c.stages[0]? with
    | some w =>
      let r := runStage c fuel w plan none
      (c, (Ev.lock :: r.1 ++ [Ev.unlock], r.2))
    | none => (c, ([Ev.lock, Ev.unlock], false))

/-- The Go `Chain.Clear`: reset `stages` and `nexts` to fresh empty slices; it
does not touch `mu` and takes no lock, so it emits no events and cannot
panic. -/
def Chain.Clear (c : Chain P E) : Chain P E × (List (Ev P E) × Bool) :=
  (⟨[], [], c.mu⟩, ([], false))

/-- Build a chain by `Add`-ing the given stage functions in order to a fresh
chain with a valid mutex. -/
def buildChain (fns : List (StageFn P E)) : Chain P E :=
  fns.foldl (fun c fn => (c.Add fn).1) (newChain P E)

/-- A stage that unconditionally calls its continuation exactly once, with the
plan and error it received, verbatim. -/
def verbatim (fn : StageFn P E) : Prop :=
  ∀ p e, fn p e = [(p, e)]

/-- The stage invocations contained in a trace: for each `Ev.invoke`, the slot
index and the `(plan, err)` arguments the stage function received. -/
def invokesOf : List (Ev P E) → List (Nat × P × Option E)
  | [] => []
  | Ev.invoke i p e :: t => (i, p, e) :: invokesOf t
  | _ :: t => invokesOf t

/-- How many times the stage at slot `i` is invoked in a trace. -/
def countStage (t : List (Ev P E)) (i : Nat) : Nat :=
  ((invokesOf t).map (fun q => q.1)).count i

/-- Unfolding of `Add` on a chain whose mutex is valid. -/
theorem Chain.Add_eq_of_mu (c : Chain P E) (fn : StageFn P E) (h : c.mu = some ()) :
    c.Add fn =
      (⟨c.stages ++ [(fn, c.nexts.length)],
        if 0 < c.nexts.length then
          (c.nexts ++ [none]).set (c.nexts.length - 1) (some (fn, c.nexts.length))
        else c.nexts ++ [none],
        some ()⟩,
       ([Ev.lock, Ev.unlock], false)) := by
  simp [Chain.Add, h]

/-- Characterization of the chain built by `Add`-ing `fns` in order to a fresh
chain with a valid mutex: slot `i` of `nexts` holds the closure of stage `i+1`
once stage `i+1` has been added, and nil for the last added stage. -/
theorem buildChain_spec (fns : List (StageFn P E)) :
    (buildChain fns).mu = some () ∧
    (buildChain fns).stages.length = fns.length ∧
    (buildChain fns).nexts.length = fns.length ∧
    (∀ i : Nat, (buildChain fns).stages[i]? = (fns[i]?).map (fun f => (f, i))) ∧
    (∀ i : Nat, i < fns.length →
      (buildChain fns).nexts[i]? = some ((fns[i + 1]?).map (fun f => (f, i + 1)))) := by
  induction fns using List.reverseRecOn with
  | nil =>
    refine ⟨rfl, rfl, rfl, fun i => ?_, fun i h => ?_⟩
    · simp [buildChain, newChain]
    · simp at h
  | append_singleton xs x ih =>
    obtain ⟨hmu, hsl, hnl, hsg, hng⟩ := ih
    have hb : buildChain (xs ++ [x]) = ((buildChain xs).Add x).1 := by
      simp [buildChain, List.foldl_append]
    rw [hb, Chain.Add_eq_of_mu _ _ hmu, hnl]
    refine ⟨rfl, by simp [hsl], ?_, ?_, ?_⟩
    · by_cases h0 : 0 < xs.length <;> simp [h0, hnl]
    · intro i
      rcases Nat.lt_trichotomy i xs.length with hi | hi | hi
      · rw [List.getElem?_append_left (by omega : i < (buildChain xs).stages.length),
          hsg i, List.getElem?_append_left hi]
      · subst hi
        rw [← hsl, List.getElem?_concat_length, hsl, List.getElem?_concat_length xs x]
        rfl
      · rw [List.getElem?_eq_none (by simp; omega), List.getElem?_eq_none (by simp; omega)]
        rfl
    · intro i hi
      have hi' : i < xs.length + 1 := by simpa using hi
      by_cases h0 : 0 < xs.length
      · rw [if_pos h0]
        rcases Nat.lt_trichotomy i (xs.length - 1) with hlt | heq | hgt
        · rw [List.getElem?_set_ne (by omega),
            List.getElem?_append_left (by omega : i < (buildChain xs).nexts.length),
            hng i (by omega), List.getElem?_append_left (by omega : i + 1 < xs.length)]
        · subst heq
          rw [List.getElem?_set_self (by simp [hnl]; omega)]
          have h1 : xs.length - 1 + 1 = xs.length := by omega
          rw [h1, List.getElem?_concat_length xs x]
          rfl
        · have hieq : i = xs.length := by omega
          subst hieq
          rw [List.getElem?_set_ne (by omega), ← hnl, List.getElem?_concat_length,
            List.getElem?_eq_none (by simp [hnl])]
          rfl
      · have hx0 : xs.length = 0 := by omega
        have hxnil : xs = [] := List.length_eq_zero.mp hx0
        have hi0 : i = 0 := by omega
        subst hxnil hi0
        rw [if_neg h0]
        have : (buildChain ([] : List (StageFn P E))).nexts = [] := by
          simp [buildChain, newChain]
        rw [this]
        rfl

/-- Mutex of a built chain is valid. -/
theorem buildChain_mu (fns : List (StageFn P E)) : (buildChain fns).mu = some () :=
  (buildChain_spec fns).1

/-- Stage-list length of a built chain. -/
theorem buildChain_stages_length (fns : List (StageFn P E)) :
    (buildChain fns).stages.length = fns.length :=
  (buildChain_spec fns).2.1

/-- Slot-list length of a built chain. -/
theorem buildChain_nexts_length (fns : List (StageFn P E)) :
    (buildChain fns).nexts.length = fns.length :=
  (buildChain_spec fns).2.2.1

/-- Stage `i` of a built chain is the closure of the `i`-th added function. -/
theorem buildChain_stages_get (fns : List (StageFn P E)) (i : Nat) :
    (buildChain fns).stages[i]? = (fns[i]?).map (fun f => (f, i)) :=
  (buildChain_spec fns).2.2.2.1 i

/-- Slot `i` of a built chain holds the closure of stage `i+1` (nil when stage
`i` is the last). -/
theorem buildChain_nexts_get (fns : List (StageFn P E)) (i : Nat) (h : i < fns.length) :
    (buildChain fns).nexts[i]? = some ((fns[i + 1]?).map (fun f => (f, i + 1))) :=
  (buildChain_spec fns).2.2.2.2 i h

/-- Slot `i` of a built chain, when stage `i+1` exists. -/
theorem buildChain_slot_mid (fns : List (StageFn P E)) (i : Nat) (f' : StageFn P E)
    (h : fns[i + 1]? = some f') (hi : i < fns.length) :
    (buildChain fns).nexts[i]? = some (some (f', i + 1)) := by
  rw [buildChain_nexts_get fns i hi, h]
  rfl

/-- Slot of the last added stage is nil until a further stage is added. -/
theorem buildChain_slot_last (fns : List (StageFn P E)) (i : Nat)
    (hi : i < fns.length) (hlast : fns.length ≤ i + 1) :
    (buildChain fns).nexts[i]? = some none := by
  rw [buildChain_nexts_get fns i hi, List.getElem?_eq_none hlast]
  rfl

/-- Sequencing a single continuation call. -/
theorem seqAbort_single {α : Type} (r : List α × Bool) : seqAbort [r] = r := by
  obtain ⟨t, b⟩ := r
  cases b <;> simp [seqAbort]

/-- An index with a stage function is in range. -/
theorem lt_of_getElem?_eq_some {α : Type} {l : List α} {i : Nat} {a : α}
    (h : l[i]? = some a) : i < l.length := by
  by_contra hc
  rw [List.getElem?_eq_none (by omega)] at h
  exact Option.noConfusion h

/-- In a built chain in which every stage calls its continuation verbatim,
running the closure of stage `i` invokes stages `i, i+1, …, n-1` in order, each
with the `(plan, err)` pair stage `i` received, and then panics invoking the
nil continuation slot of the last stage. -/
theorem runStage_verbatim_all (fns : List (StageFn P E)) (hv : ∀ fn ∈ fns, verbatim fn) :
    ∀ fuel i fi p e, fns[i]? = some fi → fns.length - i ≤ fuel →
      runStage (buildChain fns) fuel (fi, i) p e =
        ((List.range' i (fns.length - i)).map (fun j => Ev.invoke j p e) ++ [Ev.nilNextPanic],
         true) := by
  intro fuel
  induction fuel with
  | zero =>
    intro i fi p e hget hfuel
    have := lt_of_getElem?_eq_some hget
    omega
  | succ fuel ih =>
    intro i fi p e hget hfuel
    have hilt : i < fns.length := lt_of_getElem?_eq_some hget
    have hvi : verbatim fi := hv fi (List.getElem?_mem hget)
    rw [runStage]
    simp only [hvi p e, List.map_cons, List.map_nil]
    by_cases hnext : i + 1 < fns.length
    · have hf' : fns[i + 1]? = some fns[i + 1] := List.getElem?_eq_getElem hnext
      simp only [buildChain_slot_mid fns i (fns[i + 1]) hf' hilt]
      rw [ih (i + 1) (fns[i + 1]) p e hf' (by omega)]
      rw [seqAbort_single]
      have hn : fns.length - i = (fns.length - (i + 1)) + 1 := by omega
      rw [hn, List.range'_succ]
      simp
    · simp only [buildChain_slot_last fns i hilt (by omega)]
      rw [seqAbort_single]
      have hn : fns.length - i = 1 := by omega
      rw [hn]
      simp [List.range']

/-- In a built chain whose stages strictly before `k` call their continuation
verbatim and whose stage `k` makes no continuation call on the arguments it
receives, running the closure of stage `i ≤ k` invokes stages `i, …, k` in
order, each with the same `(plan, err)`, and completes without panicking. -/
theorem runStage_verbatim_until (fns : List (StageFn P E)) (k : Nat) (fnk : StageFn P E)
    (hk : fns[k]? = some fnk) (plan : P) (e0 : Option E) (hsilent : fnk plan e0 = [])
    (lo : Nat) (hv : ∀ j, lo ≤ j → j < k → ∀ fj, fns[j]? = some fj → verbatim fj) :
    ∀ fuel i fi, lo ≤ i → i ≤ k → fns[i]? = some fi → k - i < fuel →
      runStage (buildChain fns) fuel (fi, i) plan e0 =
        ((List.range' i (k - i + 1)).map (fun j => Ev.invoke j plan e0), false) := by
  intro fuel
  induction fuel with
  | zero => intro i fi hlo hik hget hfuel; omega
  | succ fuel ih =>
    intro i fi hlo hik hget hfuel
    rcases Nat.lt_or_ge i k with hlt | hge
    · have hvi : verbatim fi := hv i hlo hlt fi hget
      have hklt : k < fns.length := lt_of_getElem?_eq_some hk
      have hf' : fns[i + 1]? = some fns[i + 1] := List.getElem?_eq_getElem (by omega)
      rw [runStage]
      simp only [hvi plan e0, List.map_cons, List.map_nil]
      simp only [buildChain_slot_mid fns i (fns[i + 1]) hf' (by omega)]
      rw [ih (i + 1) (fns[i + 1]) (by omega) (by omega) hf' (by omega), seqAbort_single]
      have hn : k - i + 1 = (k - (i + 1) + 1) + 1 := by omega
      rw [hn, List.range'_succ]
      simp [List.range'_succ]
    · have hieq : i = k := by omega
      subst hieq
      have hfi : fi = fnk := by
        rw [hget] at hk
        exact Option.some.inj hk
      subst hfi
      rw [runStage]
      simp only [hsilent, List.map_nil]
      simp [seqAbort, List.range', Nat.sub_self]

/-- Running stage `i` of a built chain whose stages strictly before `k` are
verbatim produces the invocations of stages `i, …, k-1` with the same
`(plan, err)`, followed by whatever running stage `k` produces. -/
theorem runStage_verbatim_upto (fns : List (StageFn P E)) (k : Nat) (fnk : StageFn P E)
    (hk : fns[k]? = some fnk) (plan : P) (e0 : Option E)
    (hv : ∀ j, j < k → ∀ fj, fns[j]? = some fj → verbatim fj) :
    ∀ d fuel i fi, i + d = k → fns[i]? = some fi →
      runStage (buildChain fns) (fuel + d) (fi, i) plan e0 =
        (((List.range' i d).map (fun j => Ev.invoke j plan e0)) ++
           (runStage (buildChain fns) fuel (fnk, k) plan e0).1,
         (runStage (buildChain fns) fuel (fnk, k) plan e0).2) := by
  intro d
  induction d with
  | zero =>
    intro fuel i fi hik hget
    have hieq : i = k := by omega
    subst hieq
    have hfi : fi = fnk := by
      rw [hget] at hk
      exact Option.some.inj hk
    subst hfi
    simp [List.range']
  | succ d ih =>
    intro fuel i fi hik hget
    have hlt : i < k := by omega
    have hvi : verbatim fi := hv i hlt fi hget
    have hklt : k < fns.length := lt_of_getElem?_eq_some hk
    have hf' : fns[i + 1]? = some fns[i + 1] := List.getElem?_eq_getElem (by omega)
    have hfs : fuel + (d + 1) = (fuel + d) + 1 := by omega
    rw [hfs, runStage]
    simp only [hvi plan e0, List.map_cons, List.map_nil]
    simp only [buildChain_slot_mid fns i (fns[i + 1]) hf' (by omega)]
    rw [ih fuel (i + 1) (fns[i + 1]) (by omega) hf', seqAbort_single]
    rw [List.range'_succ]
    simp

/-- Unfolding of `Process` on a built nonempty chain: the lock is taken, the
closure of stage 0 is invoked with `(plan, nil)`, and the deferred unlock runs
last. -/
theorem Process_buildChain (fns : List (StageFn P E)) (f0 : StageFn P E)
    (h0 : fns[0]? = some f0) (fuel : Nat) (plan : P) :
    (buildChain fns).Process fuel plan =
      (buildChain fns,
       (Ev.lock :: (runStage (buildChain fns) fuel (f0, 0) plan none).1 ++ [Ev.unlock],
        (runStage (buildChain fns) fuel (f0, 0) plan none).2)) := by
  have hmu := buildChain_mu fns
  have hs : (buildChain fns).stages[0]? = some (f0, 0) := by
    rw [buildChain_stages_get, h0]
    rfl
  simp [Chain.Process, hmu, hs]

/-- Unfolding of `Process` on a chain with no stages and a valid mutex. -/
theorem Process_empty (c : Chain P E) (hmu : c.mu = some ()) (hs : c.stages = [])
    (fuel : Nat) (plan : P) :
    c.Process fuel plan = (c, ([Ev.lock, Ev.unlock], false)) := by
  simp [Chain.Process, hmu, hs]

/-- The invocations of a concatenated trace. -/
theorem invokesOf_append (s t : List (Ev P E)) :
    invokesOf (s ++ t) = invokesOf s ++ invokesOf t := by
  induction s with
  | nil => rfl
  | cons a s ih => cases a <;> simp [invokesOf, ih]

/-- The invocations of a pure invocation trace. -/
theorem invokesOf_map_invoke (l : List Nat) (p : P) (e : Option E) :
    invokesOf (l.map (fun j => Ev.invoke j p e)) = l.map (fun j => (j, p, e)) := by
  induction l with
  | nil => rfl
  | cons a l ih => simp [invokesOf, ih]

/-- A concrete verbatim stage over `Nat` plans and errors, for witnesses. -/
def vfnW : StageFn Nat Nat := fun p e => [(p, e)]

/-- A concrete stage calling its continuation twice, verbatim, for witnesses. -/
def dfnW : StageFn Nat Nat := fun p e => [(p, e), (p, e)]

/-- A concrete stage never calling its continuation, for witnesses. -/
def sfnW : StageFn Nat Nat := fun _ _ => []

/-- Claim C1: for a chain built by adding stages `S1..Sn` in that order, each of
which unconditionally calls its bound continuation with the plan and error it
received, `Process` invokes `S1..Sn` in exactly that order, each on the same
plan (stage 0 with error nil and every stage with the pair it was given), with
no stage skipped or repeated. -/
theorem process_invokes_stages_in_order (fns : List (StageFn P E))
    (hv : ∀ fn ∈ fns, verbatim fn) (fuel : Nat) (hfuel : fns.length ≤ fuel) (plan : P) :
    invokesOf ((buildChain fns).Process fuel plan).2.1 =
      (List.range fns.length).map (fun i => (i, plan, none)) := by
  match fns, hv with
  | [], _ =>
    rw [Process_empty (buildChain []) (buildChain_mu []) (by rfl) fuel plan]
    rfl
  | f0 :: rest, hv =>
    rw [Process_buildChain (f0 :: rest) f0 (by simp) fuel plan]
    rw [runStage_verbatim_all (f0 :: rest) hv fuel 0 f0 plan none (by simp) (by omega)]
    simp [invokesOf, invokesOf_append, invokesOf_map_invoke, List.range_eq_range',
      List.range'_succ]

/-- Witness for C1: a concrete two-stage verbatim chain invokes stages 0 then 1,
both on plan 5 with error nil. -/
theorem process_invokes_stages_in_order_witness :
    (∀ fn ∈ [vfnW, vfnW], verbatim fn) ∧ [vfnW, vfnW].length ≤ 2 ∧
    invokesOf ((buildChain [vfnW, vfnW]).Process 2 (5 : Nat)).2.1 =
      (List.range [vfnW, vfnW].length).map (fun i => (i, (5 : Nat), (none : Option Nat))) :=
  ⟨fun fn hfn => by fin_cases hfn <;> exact fun p e => rfl,
   by decide,
   process_invokes_stages_in_order [vfnW, vfnW]
     (fun fn hfn => by fin_cases hfn <;> exact fun p e => rfl) 2 (by decide) 5⟩

/-- Claim C2: in a chain of `n` stages whose stages before `k` call their
continuation verbatim, if stage `k` returns without invoking its continuation,
then during that `Process` run stages `k+1..n-1` are never invoked: the trace
is exactly the lock, the invocations of stages `0..k`, and the unlock — the
pipeline halts after stage `k` without panic, with no engine-level loop forcing
the remaining stages to run. -/
theorem short_circuit_halts_suffix (fns : List (StageFn P E)) (k : Nat)
    (fnk : StageFn P E) (hk : fns[k]? = some fnk) (plan : P)
    (hsilent : fnk plan none = [])
    (hv : ∀ j, j < k → ∀ fj, fns[j]? = some fj → verbatim fj)
    (fuel : Nat) (hfuel : k < fuel) :
    ((buildChain fns).Process fuel plan).2.1 =
      Ev.lock :: ((List.range (k + 1)).map (fun j => Ev.invoke j plan none) ++ [Ev.unlock]) ∧
    ((buildChain fns).Process fuel plan).2.2 = false ∧
    ∀ j p e, k < j → (j, p, e) ∉ invokesOf ((buildChain fns).Process fuel plan).2.1 := by
  have hklt : k < fns.length := lt_of_getElem?_eq_some hk
  have hf0 : fns[0]? = some fns[0] := List.getElem?_eq_getElem (by omega)
  rw [Process_buildChain fns (fns[0]) hf0 fuel plan]
  rw [runStage_verbatim_until fns k fnk hk plan none hsilent 0
    (fun j _ hjk => hv j hjk) fuel 0 (fns[0]) (by omega) (by omega) hf0 (by omega)]
  refine ⟨by simp [List.range_eq_range'], rfl, ?_⟩
  intro j p e hj hmem
  simp [invokesOf, invokesOf_append, invokesOf_map_invoke, List.mem_range'] at hmem
  omega

/-- Witness for C2: in a three-stage chain whose middle stage never calls its
continuation, stage 2 is never invoked and the run halts cleanly after stage 1. -/
theorem short_circuit_halts_suffix_witness :
    ([vfnW, sfnW, vfnW][1]? = some sfnW ∧ sfnW 9 none = [] ∧ (1 : Nat) < 3) ∧
    ((buildChain [vfnW, sfnW, vfnW]).Process 3 (9 : Nat)).2.1 =
      Ev.lock :: ((List.range 2).map (fun j => Ev.invoke j (9 : Nat) (none : Option Nat)) ++
        [Ev.unlock]) ∧
    ((buildChain [vfnW, sfnW, vfnW]).Process 3 (9 : Nat)).2.2 = false ∧
    ∀ j p e, 1 < j →
      (j, p, e) ∉ invokesOf ((buildChain [vfnW, sfnW, vfnW]).Process 3 (9 : Nat)).2.1 :=
  ⟨⟨rfl, rfl, by decide⟩,
   short_circuit_halts_suffix [vfnW, sfnW, vfnW] 1 sfnW rfl 9 rfl
     (fun j hj fj hget => by
       interval_cases j
       exact fun p e => by
         simp at hget
         rw [← hget]
         rfl)
     3 (by decide)⟩

/-- Claim C3: `CreateChain` never initializes `mu`, so the returned chain's
mutex is the nil pointer; the first `Add` or `Process` on such a chain
dereferences the nil mutex and panics before performing any of its specified
effect (the chain is unchanged and no lock or stage event occurs): the
construction and execution API is unusable on a chain made by the provided
constructor. -/
theorem createChain_nil_mutex_faults (P E : Type) :
    (CreateChain P E).mu = none ∧
    (∀ fn : StageFn P E,
      (CreateChain P E).Add fn = (CreateChain P E, ([Ev.nilMutexPanic], true))) ∧
    (∀ (fuel : Nat) (plan : P),
      (CreateChain P E).Process fuel plan = (CreateChain P E, ([Ev.nilMutexPanic], true))) :=
  ⟨rfl, fun _ => rfl, fun _ _ => rfl⟩

/-- Claim C5: `Process` on a chain with zero registered stages (and a valid
mutex, cf. claim C3) invokes no stage function, raises no panic (flag false),
produces only the lock and unlock events, and returns the chain: an empty chain
is a valid, silent no-op run. -/
theorem process_empty_chain_noop (c : Chain P E) (hmu : c.mu = some ())
    (hs : c.stages = []) (fuel : Nat) (plan : P) :
    c.Process fuel plan = (c, ([Ev.lock, Ev.unlock], false)) ∧
    invokesOf (c.Process fuel plan).2.1 = [] := by
  have h := Process_empty c hmu hs fuel plan
  refine ⟨h, ?_⟩
  rw [h]
  rfl

/-- Witness for C5 at the concrete fresh chain with a valid mutex. -/
theorem process_empty_chain_noop_witness :
    ((newChain Nat Nat).mu = some () ∧ (newChain Nat Nat).stages = []) ∧
    (newChain Nat Nat).Process 5 0 = (newChain Nat Nat, ([Ev.lock, Ev.unlock], false)) ∧
    invokesOf ((newChain Nat Nat).Process 5 0).2.1 = [] :=
  ⟨⟨rfl, rfl⟩, process_empty_chain_noop (newChain Nat Nat) rfl rfl 5 0⟩

/-- Claim C6: after `Clear`, a chain (with a valid mutex, cf. claim C3) behaves
as freshly created: `Process` on the cleared chain is a silent no-op invoking
nothing, and a subsequent `Add` of one stage yields a chain literally equal to
a freshly constructed chain with that same single stage added, so a following
`Process` produces exactly the behaviour of the freshly constructed chain. -/
theorem clear_resets_chain (c : Chain P E) (hmu : c.mu = some ()) :
    (∀ (fuel : Nat) (plan : P),
      ((c.Clear.1).Process fuel plan).2 = ([Ev.lock, Ev.unlock], false) ∧
      invokesOf ((c.Clear.1).Process fuel plan).2.1 = []) ∧
    (∀ fn : StageFn P E, ((c.Clear.1).Add fn).1 = ((newChain P E).Add fn).1) ∧
    (∀ (fn : StageFn P E) (fuel : Nat) (plan : P),
      (((c.Clear.1).Add fn).1.Process fuel plan).2 =
        (((newChain P E).Add fn).1.Process fuel plan).2) := by
  have hclear : c.Clear.1 = newChain P E := by
    simp [Chain.Clear, newChain, hmu]
  rw [hclear]
  refine ⟨fun fuel plan => ?_, fun fn => rfl, fun fn fuel plan => rfl⟩
  have h := Process_empty (newChain P E) rfl rfl fuel plan
  rw [h]
  exact ⟨rfl, rfl⟩

/-- Witness for C6 at a concrete populated chain. -/
theorem clear_resets_chain_witness :
    (buildChain [vfnW, sfnW]).mu = some () ∧
    ((((buildChain [vfnW, sfnW]).Clear.1).Process 4 7).2 = ([Ev.lock, Ev.unlock], false) ∧
      invokesOf (((buildChain [vfnW, sfnW]).Clear.1).Process 4 7).2.1 = []) ∧
    (((buildChain [vfnW, sfnW]).Clear.1).Add dfnW).1 = ((newChain Nat Nat).Add dfnW).1 ∧
    ((((buildChain [vfnW, sfnW]).Clear.1).Add dfnW).1.Process 4 7).2 =
      (((newChain Nat Nat).Add dfnW).1.Process 4 7).2 :=
  ⟨rfl,
   (clear_resets_chain (buildChain [vfnW, sfnW]) rfl).1 4 7,
   (clear_resets_chain (buildChain [vfnW, sfnW]) rfl).2.1 dfnW,
   (clear_resets_chain (buildChain [vfnW, sfnW]) rfl).2.2 dfnW 4 7⟩

/-- Claim C7: the stage list and the continuation-slot list have the same length
at every observable point: the invariant holds for a freshly constructed chain
(both the constructor's and the mutex-initialized literal) and is preserved by
`Add` (also when it panics on the nil mutex), by `Process`, and by `Clear`. -/
theorem stage_slot_length_invariant (c : Chain P E)
    (h : c.stages.length = c.nexts.length) :
    (CreateChain P E).stages.length = (CreateChain P E).nexts.length ∧
    (newChain P E).stages.length = (newChain P E).nexts.length ∧
    (∀ fn : StageFn P E, ((c.Add fn).1).stages.length = ((c.Add fn).1).nexts.length) ∧
    (∀ (fuel : Nat) (plan : P),
      ((c.Process fuel plan).1).stages.length = ((c.Process fuel plan).1).nexts.length) ∧
    ((c.Clear.1).stages.length = (c.Clear.1).nexts.length) := by
  refine ⟨rfl, rfl, fun fn => ?_, fun fuel plan => ?_, rfl⟩
  · cases hmu : c.mu with
    | none => simp [Chain.Add, hmu, h]
    | some u =>
      cases u
      rw [Chain.Add_eq_of_mu c fn hmu]
      by_cases h0 : 0 < c.nexts.length <;> simp [h0, h]
  · cases hmu : c.mu with
    | none => simp [Chain.Process, hmu, h]
    | some u =>
      cases u
      cases hs : c.stages[0]? <;> simp [Chain.Process, hmu, hs, h]

/-- Witness for C7 at a concrete populated chain. -/
theorem stage_slot_length_invariant_witness :
    (buildChain [vfnW]).stages.length = (buildChain [vfnW]).nexts.length ∧
    ((CreateChain Nat Nat).stages.length = (CreateChain Nat Nat).nexts.length ∧
     (newChain Nat Nat).stages.length = (newChain Nat Nat).nexts.length ∧
     (∀ fn : StageFn Nat Nat,
       (((buildChain [vfnW]).Add fn).1).stages.length =
         (((buildChain [vfnW]).Add fn).1).nexts.length) ∧
     (∀ (fuel : Nat) (plan : Nat),
       (((buildChain [vfnW]).Process fuel plan).1).stages.length =
         (((buildChain [vfnW]).Process fuel plan).1).nexts.length) ∧
     (((buildChain [vfnW]).Clear.1).stages.length =
       ((buildChain [vfnW]).Clear.1).nexts.length)) :=
  ⟨rfl, stage_slot_length_invariant (buildChain [vfnW]) rfl⟩

/-- A concrete stage that calls its continuation with a transformed plan and a
non-nil error, for witnesses. -/
def efnW : StageFn Nat Nat := fun p _ => [(p + 1, some 7)]

/-- Claim C4: error threading.  In a built chain with adjacent stages `i` and
`i+1`: (1) the run of stage `i`'s closure is its own invocation followed by the
runs of stage `i+1`'s closure at exactly the `(plan, err)` argument pairs stage
`i` passed to `next` — so a stage invoking `next(plan', someErr)` hands
precisely `(plan', someErr)` to the following stage's closure; (2) the run of
stage `i+1`'s closure on arguments `(p', e')` begins with the invocation of
stage `i+1` observing exactly `(p', e')`; and (3) `Process` always invokes
stage 0 with the initial plan and error nil. -/
theorem error_threading_verbatim_args (fns : List (StageFn P E)) (i : Nat)
    (fi fi1 : StageFn P E) (hi : fns[i]? = some fi) (hi1 : fns[i + 1]? = some fi1) :
    (∀ (fuel : Nat) (p : P) (e : Option E),
      runStage (buildChain fns) (fuel + 1) (fi, i) p e =
        (Ev.invoke i p e ::
          (seqAbort ((fi p e).map (fun q =>
            runStage (buildChain fns) fuel (fi1, i + 1) q.1 q.2))).1,
         (seqAbort ((fi p e).map (fun q =>
            runStage (buildChain fns) fuel (fi1, i + 1) q.1 q.2))).2)) ∧
    (∀ (fuel : Nat) (p' : P) (e' : Option E),
      ((runStage (buildChain fns) (fuel + 1) (fi1, i + 1) p' e').1).head? =
        some (Ev.invoke (i + 1) p' e')) ∧
    (∀ (f0 : StageFn P E) (fuel : Nat) (plan : P), fns[0]? = some f0 →
      (((buildChain fns).Process (fuel + 1) plan).2.1).take 2 =
        [Ev.lock, Ev.invoke 0 plan none]) := by
  have hilt : i < fns.length := lt_of_getElem?_eq_some hi
  refine ⟨fun fuel p e => ?_, fun fuel p' e' => ?_, fun f0 fuel plan h0 => ?_⟩
  · rw [runStage]
    simp only [buildChain_slot_mid fns i fi1 hi1 hilt]
  · rw [runStage]
    rfl
  · rw [Process_buildChain fns f0 h0 (fuel + 1) plan, runStage]
    rfl

/-- Witness for C4: in the chain `[efnW, vfnW]`, stage 0 passes `(5, some 7)`
to `next` and stage 1 observes exactly those arguments; `Process` invokes
stage 0 with `(4, nil)`. -/
theorem error_threading_verbatim_args_witness :
    ([efnW, vfnW][0]? = some efnW ∧ [efnW, vfnW][1]? = some vfnW) ∧
    runStage (buildChain [efnW, vfnW]) 2 (efnW, 0) 4 none =
      (Ev.invoke 0 4 none ::
        (seqAbort ((efnW 4 none).map (fun q =>
          runStage (buildChain [efnW, vfnW]) 1 (vfnW, 1) q.1 q.2))).1,
       (seqAbort ((efnW 4 none).map (fun q =>
          runStage (buildChain [efnW, vfnW]) 1 (vfnW, 1) q.1 q.2))).2) ∧
    ((runStage (buildChain [efnW, vfnW]) 2 (vfnW, 1) 5 (some 7)).1).head? =
      some (Ev.invoke 1 5 (some 7)) ∧
    (((buildChain [efnW, vfnW]).Process 2 4).2.1).take 2 =
      [Ev.lock, Ev.invoke 0 4 none] :=
  ⟨⟨rfl, rfl⟩,
   (error_threading_verbatim_args [efnW, vfnW] 0 efnW vfnW rfl rfl).1 1 4 none,
   (error_threading_verbatim_args [efnW, vfnW] 0 efnW vfnW rfl rfl).2.1 1 5 (some 7),
   (error_threading_verbatim_args [efnW, vfnW] 0 efnW vfnW rfl rfl).2.2 efnW 1 4 rfl⟩

/-- Claim C9: continuation slot `i` is nil from the moment stage `i` is added
until stage `i+1` is added, at which point `Add` retroactively rebinds slot `i`
to stage `i+1`'s closure; consequently, when the currently-last stage of an
all-verbatim chain invokes its continuation, it invokes a nil function and the
run faults: the trace ends in a nil-invocation panic (before the deferred
unlock) and the panic flag is set — nothing guards this. -/
theorem trailing_slot_unresolved_faults (fns : List (StageFn P E)) :
    (0 < fns.length → (buildChain fns).nexts[fns.length - 1]? = some none) ∧
    (∀ fn' : StageFn P E, 0 < fns.length →
      ((buildChain fns).Add fn').1.nexts[fns.length - 1]? =
        some (some (fn', fns.length))) ∧
    (∀ (hv : ∀ fn ∈ fns, verbatim fn) (fuel : Nat) (plan : P),
      0 < fns.length → fns.length ≤ fuel →
      ((buildChain fns).Process fuel plan).2.1 =
        Ev.lock :: (((List.range fns.length).map (fun j => Ev.invoke j plan none)) ++
          ([Ev.nilNextPanic] ++ [Ev.unlock])) ∧
      ((buildChain fns).Process fuel plan).2.2 = true) := by
  refine ⟨fun h => ?_, fun fn' h => ?_, fun hv fuel plan h hfuel => ?_⟩
  · exact buildChain_slot_last fns (fns.length - 1) (by omega) (by omega)
  · have hb : ((buildChain fns).Add fn').1 = buildChain (fns ++ [fn']) := by
      simp [buildChain, List.foldl_append]
    rw [hb]
    have hget : (fns ++ [fn'])[(fns.length - 1) + 1]? = some fn' := by
      have h1 : fns.length - 1 + 1 = fns.length := by omega
      rw [h1, List.getElem?_concat_length]
    have := buildChain_slot_mid (fns ++ [fn']) (fns.length - 1) fn' hget (by simp; omega)
    rw [this]
    have h1 : fns.length - 1 + 1 = fns.length := by omega
    rw [h1]
  · have hf0 : fns[0]? = some fns[0] := List.getElem?_eq_getElem (by omega)
    rw [Process_buildChain fns (fns[0]) hf0 fuel plan]
    rw [runStage_verbatim_all fns hv fuel 0 (fns[0]) plan none hf0 (by omega)]
    refine ⟨?_, rfl⟩
    simp [List.range_eq_range']

/-- Witness for C9 on the concrete one-stage verbatim chain. -/
theorem trailing_slot_unresolved_faults_witness :
    (0 : Nat) < 1 ∧
    (buildChain [vfnW]).nexts[0]? = some none ∧
    ((buildChain [vfnW]).Add sfnW).1.nexts[0]? = some (some (sfnW, 1)) ∧
    ((buildChain [vfnW]).Process 1 3).2.1 =
      Ev.lock :: (((List.range 1).map (fun j => Ev.invoke j (3 : Nat) (none : Option Nat))) ++
        ([Ev.nilNextPanic] ++ [Ev.unlock])) ∧
    ((buildChain [vfnW]).Process 1 3).2.2 = true :=
  ⟨by decide,
   (trailing_slot_unresolved_faults [vfnW]).1 (by decide),
   (trailing_slot_unresolved_faults [vfnW]).2.1 sfnW (by decide),
   ((trailing_slot_unresolved_faults [vfnW]).2.2
     (fun fn hfn => by fin_cases hfn <;> exact fun p e => rfl) 1 3 (by decide) (by decide)).1,
   ((trailing_slot_unresolved_faults [vfnW]).2.2
     (fun fn hfn => by fin_cases hfn <;> exact fun p e => rfl) 1 3 (by decide) (by decide)).2⟩

/-- First components of a list of invocation triples. -/
theorem map_fst_trip (l : List Nat) (p : P) (e : Option E) :
    (l.map (fun j => ((j, p, e) : Nat × P × Option E))).map (fun q => q.1) = l := by
  induction l with
  | nil => rfl
  | cons a l ih => simp [ih]

/-- Fused form of `map_fst_trip` produced by `List.map_map`. -/
theorem map_fst_comp_trip (l : List Nat) (p : P) (e : Option E) :
    List.map ((fun (q : Nat × P × Option E) => q.1) ∘ fun j => (j, p, e)) l = l := by
  induction l with
  | nil => rfl
  | cons a l ih => simp [ih, Function.comp]

/-- Counterexample to claim C8 as stated: in the chain `[dfnW, vfnW]`, stage 0
calls its bound continuation twice and every following stage (here stage 1, the
whole remaining suffix) itself calls `next`; yet stage 1 executes once, not
twice — its execution invokes the nil trailing continuation slot, the panic
unwinds through stage 0, and the second continuation call never happens. -/
theorem reinvocation_counterexample :
    ((buildChain [dfnW, vfnW]).Process 3 0).2.1 =
      [Ev.lock, Ev.invoke 0 0 none, Ev.invoke 1 0 none, Ev.nilNextPanic, Ev.unlock] ∧
    countStage ((buildChain [dfnW, vfnW]).Process 3 0).2.1 1 = 1 ∧
    ((buildChain [dfnW, vfnW]).Process 3 0).2.2 = true :=
  ⟨by decide, by decide, by decide⟩

/-- Claim C8, amended: if stage `k` calls its bound continuation twice (with
the arguments it received), every following stage except the last calls its
continuation verbatim, and the last stage returns without calling `next` (so
the unresolved trailing slot is never invoked), then the remaining suffix
`k+1..n-1` executes twice during that single `Process` call — the suffix trace
appears twice and each suffix stage is invoked exactly twice — the pipeline
imposing no run-once guard on continuations. -/
theorem reinvocation_runs_suffix_twice (fns : List (StageFn P E)) (k : Nat)
    (fnk : StageFn P E) (hk : fns[k]? = some fnk) (plan : P)
    (hdouble : fnk plan none = [(plan, none), (plan, none)])
    (hv : ∀ j, j < k → ∀ fj, fns[j]? = some fj → verbatim fj)
    (hsuffix : ∀ j, k < j → j < fns.length - 1 → ∀ fj, fns[j]? = some fj → verbatim fj)
    (flast : StageFn P E) (hlast : fns[fns.length - 1]? = some flast)
    (hlsilent : flast plan none = [])
    (hkl : k < fns.length - 1)
    (fuel : Nat) (hfuel : fns.length ≤ fuel) :
    ((buildChain fns).Process fuel plan).2.1 =
      Ev.lock :: (((List.range (k + 1)).map (fun j => Ev.invoke j plan none)) ++
        (((List.range' (k + 1) (fns.length - 1 - k)).map (fun j => Ev.invoke j plan none)) ++
         (((List.range' (k + 1) (fns.length - 1 - k)).map (fun j => Ev.invoke j plan none)) ++
          [Ev.unlock]))) ∧
    ((buildChain fns).Process fuel plan).2.2 = false ∧
    (∀ j, k < j → j < fns.length →
      countStage ((buildChain fns).Process fuel plan).2.1 j = 2) := by
  have hkn : k < fns.length := by omega
  have hf0 : fns[0]? = some fns[0] := List.getElem?_eq_getElem (by omega)
  have hfk1 : fns[k + 1]? = some fns[k + 1] := List.getElem?_eq_getElem (by omega)
  have hchild : ∀ f', fns.length - 1 - (k + 1) < f' →
      runStage (buildChain fns) f' (fns[k + 1], k + 1) plan none =
        ((List.range' (k + 1) (fns.length - 1 - k)).map (fun j => Ev.invoke j plan none),
         false) := by
    intro f' hf'
    have h := runStage_verbatim_until fns (fns.length - 1) flast hlast plan none hlsilent
      (k + 1) (fun j hlo hj fj hget => hsuffix j (by omega) hj fj hget)
      f' (k + 1) (fns[k + 1]) (by omega) (by omega) hfk1 (by omega)
    rw [h]
    have hm : fns.length - 1 - (k + 1) + 1 = fns.length - 1 - k := by omega
    rw [hm]
  have hT : ∀ m, fns.length - k ≤ m →
      runStage (buildChain fns) m (fnk, k) plan none =
        (Ev.invoke k plan none ::
          (((List.range' (k + 1) (fns.length - 1 - k)).map (fun j => Ev.invoke j plan none)) ++
           ((List.range' (k + 1) (fns.length - 1 - k)).map (fun j => Ev.invoke j plan none))),
         false) := by
    intro m hm
    have hm1 : m = (m - 1) + 1 := by omega
    rw [hm1, runStage]
    simp only [hdouble, List.map_cons, List.map_nil]
    simp only [buildChain_slot_mid fns k (fns[k + 1]) hfk1 hkn]
    rw [hchild (m - 1) (by omega)]
    simp [seqAbort]
  have hupto := runStage_verbatim_upto fns k fnk hk plan none hv k (fuel - k) 0 (fns[0])
    (by omega) hf0
  rw [hT (fuel - k) (by omega)] at hupto
  have hfe : fuel - k + k = fuel := by omega
  rw [hfe] at hupto
  simp only [] at hupto
  have htrace : ((buildChain fns).Process fuel plan).2.1 =
      Ev.lock :: (((List.range (k + 1)).map (fun j => Ev.invoke j plan none)) ++
        (((List.range' (k + 1) (fns.length - 1 - k)).map (fun j => Ev.invoke j plan none)) ++
         (((List.range' (k + 1) (fns.length - 1 - k)).map (fun j => Ev.invoke j plan none)) ++
          [Ev.unlock]))) := by
    rw [Process_buildChain fns (fns[0]) hf0 fuel plan]
    rw [hupto]
    simp [List.range_eq_range', List.range'_concat, List.append_assoc]
  have hflag : ((buildChain fns).Process fuel plan).2.2 = false := by
    rw [Process_buildChain fns (fns[0]) hf0 fuel plan]
    rw [hupto]
  refine ⟨htrace, hflag, ?_⟩
  intro j hjk hjn
  rw [countStage, htrace]
  have hc0 : (List.range (k + 1)).count j = 0 :=
    List.count_eq_zero.mpr (fun hmem => by rw [List.mem_range] at hmem; omega)
  have hcm : j ∈ List.range' (k + 1) (fns.length - 1 - k) := by
    rw [List.mem_range'_1]
    omega
  have hc1 : (List.range' (k + 1) (fns.length - 1 - k)).count j = 1 :=
    List.count_eq_one_of_mem (List.nodup_range' _ _) hcm
  simp [invokesOf, invokesOf_append, invokesOf_map_invoke, map_fst_trip, map_fst_comp_trip,
    List.map_append, List.count_append, hc0, hc1]

/-- Witness for the amended C8 on the chain `[dfnW, vfnW, sfnW]`: stage 0 calls
`next` twice, stage 1 is verbatim, stage 2 is silent; stages 1 and 2 each run
twice. -/
theorem reinvocation_runs_suffix_twice_witness :
    (dfnW 2 none = [(2, none), (2, none)] ∧ sfnW 2 none = [] ∧ (0 : Nat) < 3 - 1 ∧
      (3 : Nat) ≤ 3) ∧
    ((buildChain [dfnW, vfnW, sfnW]).Process 3 2).2.1 =
      Ev.lock :: (((List.range 1).map (fun j => Ev.invoke j (2 : Nat) (none : Option Nat))) ++
        (((List.range' 1 2).map (fun j => Ev.invoke j (2 : Nat) (none : Option Nat))) ++
         (((List.range' 1 2).map (fun j => Ev.invoke j (2 : Nat) (none : Option Nat))) ++
          [Ev.unlock]))) ∧
    ((buildChain [dfnW, vfnW, sfnW]).Process 3 2).2.2 = false ∧
    countStage ((buildChain [dfnW, vfnW, sfnW]).Process 3 2).2.1 1 = 2 ∧
    countStage ((buildChain [dfnW, vfnW, sfnW]).Process 3 2).2.1 2 = 2 :=
  ⟨⟨rfl, rfl, by decide, by decide⟩,
   (reinvocation_runs_suffix_twice [dfnW, vfnW, sfnW] 0 dfnW rfl 2 rfl
     (fun j hj => absurd hj (by omega))
     (fun j hj0 hj2 fj hget => by
       have hj : j = 1 := by
         simp at hj2
         omega
       subst hj
       exact fun p e => by
         simp at hget
         rw [← hget]
         rfl)
     sfnW rfl rfl (by decide) 3 (by decide)).1,
   (reinvocation_runs_suffix_twice [dfnW, vfnW, sfnW] 0 dfnW rfl 2 rfl
     (fun j hj => absurd hj (by omega))
     (fun j hj0 hj2 fj hget => by
       have hj : j = 1 := by
         simp at hj2
         omega
       subst hj
       exact fun p e => by
         simp at hget
         rw [← hget]
         rfl)
     sfnW rfl rfl (by decide) 3 (by decide)).2.1,
   (reinvocation_runs_suffix_twice [dfnW, vfnW, sfnW] 0 dfnW rfl 2 rfl
     (fun j hj => absurd hj (by omega))
     (fun j hj0 hj2 fj hget => by
       have hj : j = 1 := by
         simp at hj2
         omega
       subst hj
       exact fun p e => by
         simp at hget
         rw [← hget]
         rfl)
     sfnW rfl rfl (by decide) 3 (by decide)).2.2 1 (by decide) (by decide),
   (reinvocation_runs_suffix_twice [dfnW, vfnW, sfnW] 0 dfnW rfl 2 rfl
     (fun j hj => absurd hj (by omega))
     (fun j hj0 hj2 fj hget => by
       have hj : j = 1 := by
         simp at hj2
         omega
       subst hj
       exact fun p e => by
         simp at hget
         rw [← hget]
         rfl)
     sfnW rfl rfl (by decide) 3 (by decide)).2.2 2 (by decide) (by decide)⟩

end MesheryPattern
